import Mathlib

/-!
Verification of the content-region extraction engine of `web2llm`
(`src/web2llm/scrapers/generic_scraper.py`; the legacy variant lives in
`src/web_to_llm_pkg/scrapers/generic_scraper.py`).

Embedding conventions:
* The DOM is a rose tree (`Node`).  BeautifulSoup search APIs (`find`,
  `find_all`, `find_next_siblings`, `select_one`) are embedded as
  pre-order searches over descendants; `find`-family calls that pass no
  `string` filter match only element (Tag) nodes, never text
  (NavigableString) nodes — bs4's documented behaviour.
* `copy.copy` on a bs4 Tag clones the whole subtree (bs4 implements
  `__copy__` recursively), so both `copy.copy` and `copy.deepcopy` are
  embedded as `copyNode`.
* bs4 truthiness: `Tag.__bool__` returns `True` for every Tag ("A tag
  is non-None even if it has no contents"), so each `if x:` /
  `if not x:` test on a `find`/`select_one` result in the source is a
  found (not-`None`) check, embedded through `Option`.  Python string
  truthiness (nonemptiness) still matters for `fragment_id` and
  attribute values.
* Python string methods are embedded as executable character-list
  functions: `pyStrip` (`str.strip()`), `pyStartsWith`
  (`str.startswith`), `pyReplace` (`str.replace`, all occurrences),
  `normalizeWs` (`" ".join(s.split())`).  Lean's `Char.isWhitespace`
  (space, tab, CR, LF) stands in for Python's whitespace class.
* External collaborators stay parameters: `join` for
  `urllib.parse.urljoin`, `render` for `markdownify`, and the CSS
  selector strings of `WEB_SCRAPER_CONFIG` become predicate lists
  (`List (Node → Bool)`) tried in order, mirroring `select_one` chains.
-/

/-- Python `str.strip()` on Lean strings (whitespace from both ends). -/
def pyStrip (s : String) : String :=
  String.mk (((s.data.dropWhile Char.isWhitespace).reverse.dropWhile
    Char.isWhitespace).reverse)

/-- Python `s.startswith(p)`. -/
def pyStartsWith (s p : String) : Bool :=
  p.data.isPrefixOf s.data

/-- One fuel-indexed step of `str.replace`: each step consumes at least
one character of the subject, so `s.length` fuel is always enough. -/
def pyReplaceAux (pat rep : List Char) : Nat → List Char → List Char
  | 0, s => s
  | _ + 1, [] => []
  | fuel + 1, c :: cs =>
    if pat ≠ [] ∧ pat.isPrefixOf (c :: cs) then
      rep ++ pyReplaceAux pat rep fuel ((c :: cs).drop pat.length)
    else c :: pyReplaceAux pat rep fuel cs

/-- Python `s.replace(pat, rep)` (all occurrences, left to right). -/
def pyReplace (s pat rep : String) : String :=
  String.mk (pyReplaceAux pat.data rep.data s.data.length s.data)

/-- Splitting on whitespace runs, dropping empty pieces: `s.split()`. -/
def pyWordsAux : List Char → List Char → List String
  | [], acc => if acc = [] then [] else [String.mk acc.reverse]
  | c :: cs, acc =>
    if c.isWhitespace then
      if acc = [] then pyWordsAux cs [] else String.mk acc.reverse :: pyWordsAux cs []
    else pyWordsAux cs (c :: acc)

/-- Python `s.split()` (split on whitespace runs, no empty pieces). -/
def pyWords (s : String) : List String :=
  pyWordsAux s.data []

/-- Join a list of words with single spaces. -/
def joinWords : List String → String
  | [] => ""
  | [w] => w
  | w :: ws => w ++ " " ++ joinWords ws

/-- `" ".join(s.split())`: collapse whitespace runs to single spaces and
trim the ends — the link-text normalization of the scraper. -/
def normalizeWs (s : String) : String :=
  joinWords (pyWords s)

/-- Is `sub` a substring of `s`?  Embeds Python's `in` operator, used by
the CSS attribute selector `img[alt*="Badge"]`. -/
def pyContains (s sub : String) : Bool :=
  s.data.tails.any (fun t => sub.data.isPrefixOf t)

/-- A parsed DOM node: a text leaf (bs4 NavigableString) or an element
(bs4 Tag) with tag name, attributes, the multi-valued `class` attribute
and ordered children. -/
inductive Node where
  | text (s : String)
  | elem (tag : String) (attrs : List (String × String)) (classes : List String)
      (children : List Node)
deriving Repr

/-- Simultaneous induction over `Node` and `List Node`, specialised from
the nested recursor. -/
theorem nodeInduction
    (P : Node → Prop) (Q : List Node → Prop)
    (htext : ∀ s, P (.text s))
    (helem : ∀ t a c cs, Q cs → P (.elem t a c cs))
    (hnil : Q [])
    (hcons : ∀ n ns, P n → Q ns → Q (n :: ns)) :
    ∀ n, P n :=
  fun n => @Node.rec P Q htext helem hnil hcons n

/-- List form of `nodeInduction`. -/
theorem nodeListInduction
    (P : Node → Prop) (Q : List Node → Prop)
    (htext : ∀ s, P (.text s))
    (helem : ∀ t a c cs, Q cs → P (.elem t a c cs))
    (hnil : Q [])
    (hcons : ∀ n ns, P n → Q ns → Q (n :: ns)) :
    ∀ l, Q l :=
  fun l => List.rec hnil
    (fun n ns ih => hcons n ns (nodeInduction P Q htext helem hnil hcons n) ih) l

mutual

def beqNode : Node → Node → Bool
  | .text s, .text t => s == t
  | .elem t1 a1 c1 cs1, .elem t2 a2 c2 cs2 =>
      t1 == t2 && a1 == a2 && c1 == c2 && beqNodeList cs1 cs2
  | _, _ => false
termination_by structural n => n

def beqNodeList : List Node → List Node → Bool
  | [], [] => true
  | n :: ns, m :: ms => beqNode n m && beqNodeList ns ms
  | _, _ => false
termination_by structural l => l

end

theorem beqNode_iff : ∀ a b : Node, beqNode a b = true ↔ a = b := by
  apply nodeInduction (fun a => ∀ b, beqNode a b = true ↔ a = b)
    (fun l => ∀ m, beqNodeList l m = true ↔ l = m)
  · intro s b
    cases b <;> simp [beqNode]
  · intro t a c cs ih b
    cases b with
    | text s => simp [beqNode]
    | elem t2 a2 c2 cs2 =>
      simp only [beqNode, Bool.and_eq_true, beq_iff_eq, ih, Node.elem.injEq]
      tauto
  · intro m
    cases m <;> simp [beqNodeList]
  · intro n ns ihn ihns m
    cases m with
    | nil => simp [beqNodeList]
    | cons m ms =>
      simp only [beqNodeList, Bool.and_eq_true, ihn, ihns, List.cons.injEq]

instance : DecidableEq Node := fun a b =>
  decidable_of_iff (beqNode a b = true) (beqNode_iff a b)

/-- Tag name of a node (`None` for a text leaf, as bs4's `.name`). -/
def Node.name : Node → Option String
  | .text _ => none
  | .elem t _ _ _ => some t

/-- Is this node an element (a bs4 Tag)? -/
def Node.isElem : Node → Bool
  | .text _ => false
  | .elem _ _ _ _ => true

/-- Children of a node (text leaves have none): bs4 `.contents`. -/
def Node.childList : Node → List Node
  | .text _ => []
  | .elem _ _ _ cs => cs

/-- Attribute lookup, first binding wins. -/
def Node.getAttr (n : Node) (key : String) : Option String :=
  match n with
  | .text _ => none
  | .elem _ attrs _ _ => (attrs.find? (fun p => p.1 = key)).map (fun p => p.2)

/-- The `id` attribute. -/
def Node.idOf (n : Node) : Option String := n.getAttr "id"

/-- The `href` attribute. -/
def Node.hrefOf (n : Node) : Option String := n.getAttr "href"

/-- The multi-valued `class` attribute (empty when absent). -/
def Node.classList : Node → List String
  | .text _ => []
  | .elem _ _ cs _ => cs

/-- Does the node's tag name belong to `tags`?  (false for text). -/
def hasTagIn (tags : List String) (n : Node) : Bool :=
  match n.name with
  | some t => t ∈ tags
  | none => false

mutual

/-- `tag.get_text(strip=True)`: concatenation of every descendant text
leaf, each stripped of surrounding whitespace. -/
def getTextStrip : Node → String
  | .text s => pyStrip s
  | .elem _ _ _ cs => getTextStripList cs
termination_by structural n => n

def getTextStripList : List Node → String
  | [] => ""
  | n :: ns => getTextStrip n ++ getTextStripList ns
termination_by structural l => l

end

mutual

/-- bs4 `el.find(...)` with an element predicate: first element among
`el`'s descendants (excluding `el` itself) satisfying `p`, in pre-order
document order.  Also embeds `select_one` for a selector predicate. -/
def findFirst (p : Node → Bool) : Node → Option Node
  | .text _ => none
  | .elem _ _ _ cs => findFirstList p cs
termination_by structural n => n

def findFirstList (p : Node → Bool) : List Node → Option Node
  | [] => none
  | n :: ns =>
    if p n then some n
    else
      match findFirst p n with
      | some r => some r
      | none => findFirstList p ns
termination_by structural l => l

end

/-- bs4 `el.find(tags)`: first descendant whose tag is in `tags`. -/
def findFirstTagIn (tags : List String) (n : Node) : Option Node :=
  findFirst (hasTagIn tags) n

/-- Truthiness of `sibling.find(stop_tags)`: does the subtree strictly
below `n` contain an element with tag in `tags`? -/
def containsTag (tags : List String) (n : Node) : Bool :=
  (findFirstTagIn tags n).isSome

mutual

/-- `soup.find(id=frag)` enriched with context: the first element in
pre-order whose `id` equals `frag`, paired with the list of its raw
following siblings (bs4's `find_next_siblings()` later keeps only the
element ones). -/
def findTargetIn (frag : String) : Node → Option (Node × List Node)
  | .text _ => none
  | .elem _ _ _ cs => findTargetInList frag cs
termination_by structural n => n

def findTargetInList (frag : String) : List Node → Option (Node × List Node)
  | [] => none
  | n :: ns =>
    if n.idOf = some frag then some (n, ns)
    else
      match findTargetIn frag n with
      | some r => some r
      | none => findTargetInList frag ns
termination_by structural l => l

end

mutual

/-- `copy.copy` / `copy.deepcopy` of a bs4 node: a recursive clone of
the subtree, detached from the originating tree. -/
def copyNode : Node → Node
  | .text s => .text s
  | .elem t a c cs => .elem t a c (copyNodeList cs)
termination_by structural n => n

def copyNodeList : List Node → List Node
  | [] => []
  | n :: ns => copyNode n :: copyNodeList ns
termination_by structural l => l

end

theorem copyNode_eq : ∀ n : Node, copyNode n = n := by
  apply nodeInduction (fun n => copyNode n = n) (fun l => copyNodeList l = l)
  · intro s; rfl
  · intro t a c cs ih; simp [copyNode, ih]
  · rfl
  · intro n ns ih1 ih2; simp [copyNodeList, ih1, ih2]

theorem copyNodeList_eq : ∀ l : List Node, copyNodeList l = l := by
  apply nodeListInduction (fun n => copyNode n = n) (fun l => copyNodeList l = l)
  · intro s; rfl
  · intro t a c cs ih; simp [copyNode, ih]
  · rfl
  · intro n ns ih1 ih2; simp [copyNodeList, ih1, ih2]

/-! ## Region Scoper — `GenericScraper._get_fragment_element` -/

/-- The six heading tags, in depth order. -/
def headingTags : List String := ["h1", "h2", "h3", "h4", "h5", "h6"]

/-- `int(target_element.name[1])`: heading depth from the tag name. -/
def stopLevel (t : String) : Nat :=
  match t.data with
  | _ :: d :: _ => d.toNat - '0'.toNat
  | _ => 0

/-- `[f"h{i}" for i in range(1, stop_level + 1)]`. -/
def stopTagsFor (t : String) : List String :=
  headingTags.take (stopLevel t)

/-- bs4 `find_next_siblings()` with no filters yields only the element
siblings (text siblings are skipped), in document order. -/
def elementsOnly (ns : List Node) : List Node :=
  ns.filter Node.isElem

mutual

/-- Pruning pass of the sibling walk: inside the deep copy of a sibling
that contains a stop tag, locate the first stop-tag descendant in
pre-order (`safe_sibling.find(stop_tags)`), `decompose` every one of its
following element siblings (`nested_stop_tag.find_next_siblings()` is
again element-only) and then the stop tag itself.  Text siblings of the
stop tag survive; siblings of its ancestors are untouched. -/
def pruneChildren (stopTags : List String) : List Node → List Node
  | [] => []
  | n :: ns =>
    if hasTagIn stopTags n then ns.filter (fun m => ¬ m.isElem)
    else if containsTag stopTags n then pruneBelow stopTags n :: ns
    else n :: pruneChildren stopTags ns
termination_by structural l => l

def pruneBelow (stopTags : List String) : Node → Node
  | .text s => .text s
  | .elem t a c cs => .elem t a c (pruneChildren stopTags cs)
termination_by structural n => n

end

/-- The sibling walk of `_get_fragment_element`: walk the anchor's
following siblings in order; a text sibling would be copied and kept (a
dead branch, since `find_next_siblings()` yields no text nodes); a
sibling that itself is a stop tag ends the walk and is dropped; a
sibling containing a stop-tag descendant is deep-copied, pruned and
kept as the last sibling; any other sibling is copied and kept. -/
def fragmentWalk (stopTags : List String) : List Node → List Node
  | [] => []
  | .text s :: rest => copyNode (.text s) :: fragmentWalk stopTags rest
  | .elem t a c cs :: rest =>
    if t ∈ stopTags then []
    else if containsTag stopTags (.elem t a c cs) then
      [pruneBelow stopTags (copyNode (.elem t a c cs))]
    else copyNode (.elem t a c cs) :: fragmentWalk stopTags rest

/-- `GenericScraper._get_fragment_element(soup, fragment_id)`: resolve
the anchor; a non-heading anchor is returned as a copy of its whole
subtree; a heading anchor starts a synthetic `div` holding a copy of
the anchor followed by the sibling walk bounded by `stop_tags`. -/
def getFragmentElement (soup : Node) (frag : String) : Option Node :=
  match findTargetIn frag soup with
  | none => none
  | some (target, sibs) =>
    match target.name with
    | none => none
    | some t =>
      if t ∉ headingTags then some (copyNode target)
      else
        some (Node.elem "div" [] []
          (copyNode target :: fragmentWalk (stopTagsFor t) (elementsOnly sibs)))

/-! ## Link Graph Extractor — `_extract_links_recursive`, `_extract_flat_links` -/

/-- One extracted link: normalized text, resolved href, nested children
(mirrors the dicts built by the extractor; `children` is empty when the
source never set the key). -/
inductive LinkEntry where
  | mk (text href : String) (children : List LinkEntry)
deriving Repr

def LinkEntry.text : LinkEntry → String
  | .mk t _ _ => t

def LinkEntry.href : LinkEntry → String
  | .mk _ h _ => h

def LinkEntry.children : LinkEntry → List LinkEntry
  | .mk _ _ cs => cs

/-- The list-like container tags. -/
def listTags : List String := ["ul", "ol", "dl"]

/-- `list_element.find_all(["li", "dt"], recursive=False)`: the direct
children that are list items. -/
def directItems (lst : Node) : List Node :=
  lst.childList.filter (hasTagIn ["li", "dt"])

/-- `item.find("a", href=True, recursive=False)`: first direct child
anchor carrying an `href` attribute. -/
def findDirectLink (item : Node) : Option Node :=
  item.childList.find? (fun c => hasTagIn ["a"] c && c.hrefOf.isSome)

/-- `item.find(["ul", "ol", "dl"], recursive=False)`: first direct child
that is a list container. -/
def findDirectList (item : Node) : Option Node :=
  item.childList.find? (hasTagIn listTags)

mutual

/-- `GenericScraper._extract_links_recursive(element, base_url)`.
`join` stands for `urllib.parse.urljoin`.  The recursion of the source
is bounded here by a `fuel` argument: every recursive call of the
source descends strictly into the tree, so any fuel at least the tree
depth computes the same answer; the invariants proved below hold for
every fuel.  Note the source looks for the first list-like *descendant*
of `element` (`element.find([...])`), also when `element` is itself the
nested list of an item. -/
def extractLinksRecursive (join : String → String → String) (base : String) :
    Nat → Option Node → List LinkEntry
  | _, none => []
  | 0, some _ => []
  | fuel + 1, some el =>
    match findFirstTagIn listTags el with
    | none => []
    | some lst => extractItems join base fuel (directItems lst)
termination_by structural fuel => fuel

/-- The per-item loop body of `_extract_links_recursive`: an item with a
direct link of nonempty normalized text yields one entry (with children
from its direct nested list, when present); an item with a direct link
of empty normalized text yields nothing at all; an item without a
direct link splices the entries of its direct nested list. -/
def extractItems (join : String → String → String) (base : String) :
    Nat → List Node → List LinkEntry
  | 0, _ => []
  | _ + 1, [] => []
  | fuel + 1, item :: rest =>
    (match findDirectLink item with
     | some a =>
       let txt := normalizeWs (getTextStrip a)
       if txt = "" then []
       else
         [LinkEntry.mk txt (join base (a.hrefOf.getD ""))
           (match findDirectList item with
            | some nl => extractLinksRecursive join base fuel (some nl)
            | none => [])]
     | none =>
       match findDirectList item with
       | some nl => extractLinksRecursive join base fuel (some nl)
       | none => []) ++ extractItems join base fuel rest
termination_by structural fuel => fuel

end

/-- The contribution of a single list item (the loop body of
`_extract_links_recursive`), with `fuel` bounding the nested
recursion. -/
def processItem (join : String → String → String) (base : String)
    (fuel : Nat) (item : Node) : List LinkEntry :=
  match findDirectLink item with
  | some a =>
    let txt := normalizeWs (getTextStrip a)
    if txt = "" then []
    else
      [LinkEntry.mk txt (join base (a.hrefOf.getD ""))
        (match findDirectList item with
         | some nl => extractLinksRecursive join base fuel (some nl)
         | none => [])]
  | none =>
    match findDirectList item with
    | some nl => extractLinksRecursive join base fuel (some nl)
    | none => []

theorem extractItems_cons (join : String → String → String) (base : String)
    (fuel : Nat) (item : Node) (rest : List Node) :
    extractItems join base (fuel + 1) (item :: rest) =
      processItem join base fuel item ++ extractItems join base fuel rest := rfl

mutual

/-- bs4 `el.find_all("a", href=True)`: every descendant anchor carrying
an `href` attribute, in pre-order document order (descending also into
matched anchors). -/
def findAllAnchors : Node → List Node
  | .text _ => []
  | .elem _ _ _ cs => findAllAnchorsList cs
termination_by structural n => n

def findAllAnchorsList : List Node → List Node
  | [] => []
  | n :: ns =>
    (if hasTagIn ["a"] n && n.hrefOf.isSome then [n] else []) ++
      findAllAnchors n ++ findAllAnchorsList ns
termination_by structural l => l

end

/-- `GenericScraper._extract_flat_links(element, base_url)`: every
anchor in document order, normalized text, empty-text anchors skipped,
no nesting. -/
def extractFlatLinks (join : String → String → String) (base : String) :
    Option Node → List LinkEntry
  | none => []
  | some el =>
    (findAllAnchors el).filterMap (fun a =>
      let txt := normalizeWs (getTextStrip a)
      if txt = "" then none
      else some (LinkEntry.mk txt (join base (a.hrefOf.getD "")) []))

/-! ## Markdown Renderer hook — `_get_code_language` -/

/-- Inner loop of the ancestor scan: the first `highlight-<lang>` class
whose `<lang>` (after removing every `highlight-` occurrence and
stripping) is not a generic placeholder. -/
def langFromHighlightClasses (classes : List String) : Option String :=
  classes.findSome? (fun cn =>
    if pyStartsWith cn "highlight-" then
      let lang := pyStrip (pyReplace cn "highlight-" "")
      if lang ∉ ["default", "text"] then some lang else none
    else none)

/-- The ancestor scan of `_get_code_language`: walk `el.parents`
(innermost first); only `div` ancestors that carry a `class` attribute
are inspected (an absent `class` is the empty class list here, and an
empty list yields nothing either way). -/
def divHighlightLang (parents : List Node) : Option String :=
  parents.findSome? (fun p =>
    match p with
    | .elem "div" _ cs _ => langFromHighlightClasses cs
    | _ => none)

/-- The element's own class scan: the first `language-<lang>` class
yields `<lang>` (no placeholder filtering here). -/
def langFromLanguageClasses (classes : List String) : Option String :=
  classes.findSome? (fun cn =>
    if pyStartsWith cn "language-" then
      some (pyStrip (pyReplace cn "language-" ""))
    else none)

/-- `GenericScraper._get_code_language(el)`.  `parents` is the ancestor
chain of `el`, innermost first (`el.parents`), made explicit because
the embedded tree stores no parent pointers. -/
def getCodeLanguage (parents : List Node) (el : Node) : String :=
  if pyStartsWith (getTextStrip el) ">>>" then "python"
  else
    match divHighlightLang parents with
    | some lang => lang
    | none =>
      match langFromLanguageClasses el.classList with
      | some lang => lang
      | none => ""

/-! ## Noise Filter and link rewriting (the in-place clean-up of `scrape`) -/

/-- `a.headerlink` — the "jump to heading" decorator links. -/
def isHeaderlink (n : Node) : Bool :=
  n.name = some "a" && "headerlink" ∈ n.classList

/-- `img[alt*="Badge"]` — badge images. -/
def isBadgeImg (n : Node) : Bool :=
  n.name = some "img" &&
    (match n.getAttr "alt" with
     | some v => pyContains v "Badge"
     | none => false)

mutual

/-- `for a in main_element.select("a.headerlink"): a.decompose()` as a
pure transformation: every matching descendant is removed (the region
root itself is not a search result of `select`). -/
def removeHeaderlinks : Node → Node
  | .text s => .text s
  | .elem t a c cs => .elem t a c (removeHeaderlinksList cs)
termination_by structural n => n

def removeHeaderlinksList : List Node → List Node
  | [] => []
  | n :: ns =>
    if isHeaderlink n then removeHeaderlinksList ns
    else removeHeaderlinks n :: removeHeaderlinksList ns
termination_by structural l => l

end

mutual

/-- The badge pass of `scrape`: for each descendant badge image, if its
immediate parent is an `a` the whole parent link is decomposed,
otherwise just the image.  (The edge case in which the region root
itself is such an `a` cannot be represented by a pure subtree
transformation and is not exercised by any claim.) -/
def removeBadges : Node → Node
  | .text s => .text s
  | .elem t a c cs => .elem t a c (removeBadgesList t cs)
termination_by structural n => n

def removeBadgesList (parentTag : String) : List Node → List Node
  | [] => []
  | n :: ns =>
    if isBadgeImg n && parentTag ≠ "a" then removeBadgesList parentTag ns
    else if n.name = some "a" && n.childList.any isBadgeImg then
      removeBadgesList parentTag ns
    else removeBadges n :: removeBadgesList parentTag ns
termination_by structural l => l

end

/-- Rewrite the `href` bindings of an anchor element to absolute form. -/
def rewriteAttrs (join : String → String → String) (base : String)
    (n : Node) : Node :=
  match n with
  | .text s => .text s
  | .elem t a c cs =>
    if t = "a" ∧ (a.find? (fun p => p.1 = "href")).isSome then
      .elem t (a.map (fun p => if p.1 = "href" then (p.1, join base p.2) else p)) c cs
    else .elem t a c cs

mutual

/-- `for a_tag in main_element.find_all("a", href=True): a_tag["href"] =
urljoin(...)`: every descendant anchor with an `href` gets it resolved
against the source locator (`find_all` searches descendants only, so
the region root is left alone). -/
def rewriteHrefsBelow (join : String → String → String) (base : String) :
    Node → Node
  | .text s => .text s
  | .elem t a c cs => rewriteAttrs join base (.elem t a c (rewriteHrefsList join base cs))
termination_by structural n => n

def rewriteHrefsList (join : String → String → String) (base : String) :
    List Node → List Node
  | [] => []
  | n :: ns => rewriteHrefsBelow join base n :: rewriteHrefsList join base ns
termination_by structural l => l

end

/-- The descendant-only `find_all` pass on a region root. -/
def rewriteHrefs (join : String → String → String) (base : String)
    (root : Node) : Node :=
  match root with
  | .text s => .text s
  | .elem t a c cs => .elem t a c (rewriteHrefsList join base cs)

/-- The three clean-up passes `scrape` applies to the content region
before rendering, in source order: headerlink removal, badge removal,
href resolution. -/
def cleanRegion (join : String → String → String) (base : String)
    (n : Node) : Node :=
  rewriteHrefs join base (removeBadges (removeHeaderlinks n))

/-! ## Scrape assembly — `GenericScraper.scrape` -/

/-- `urlparse(url).fragment`: everything after the first `#`. -/
def fragAux : List Char → List Char
  | [] => []
  | c :: cs => if c = '#' then cs else fragAux cs

def fragmentOf (url : String) : String :=
  String.mk (fragAux url.data)

/-- bs4 `.string`: the string of a sole text child, recursing through a
sole element child; `None` otherwise. -/
def nodeString : Node → Option String
  | .text s => some s
  | .elem _ _ _ [c] => nodeString c
  | .elem _ _ _ _ => none

/-- `soup.title.string.strip() if soup.title else "No Title Found"`.
A found title whose `.string` is `None` (childless, or more than one
child) makes the Python raise `AttributeError` on `None.strip()`; that
raise is embedded as `none`. -/
def titleOf (soup : Node) : Option String :=
  match findFirstTagIn ["title"] soup with
  | none => some "No Title Found"
  | some t => (nodeString t).map pyStrip

/-- `soup.find("meta", attrs={"name": "description"})` and the guarded
content read: when the tag was found (`description_tag` — any found
Tag is truthy) and its `content` attribute is a nonempty string, the
stripped content; the empty string otherwise. -/
def descriptionOf (soup : Node) : String :=
  match findFirst (fun n => n.name = some "meta" &&
      n.getAttr "name" = some "description") soup with
  | none => ""
  | some t =>
    match t.getAttr "content" with
    | some c => if c ≠ "" then pyStrip c else ""
    | none => ""

/-- The `for selector in ...: main_element = soup.select_one(selector);
if main_element: break` loop: every found Tag is truthy, so the loop
keeps the first selector with any match; when no selector matches, the
loop variable is left `None`. -/
def firstSelectorMatch (sels : List (Node → Bool)) (soup : Node) :
    Option Node :=
  sels.findSome? (fun p => findFirst p soup)

/-- The content-region choice of `scrape`: the fragment region when a
fragment is present and `_get_fragment_element` returned one
(`if not main_element:` is a `None` check), else the fallback selector
chain. -/
def mainElementOf (mainSels : List (Node → Bool)) (soup : Node)
    (frag : String) : Option Node :=
  match (if frag ≠ "" then getFragmentElement soup frag else none) with
  | some m => some m
  | none => firstSelectorMatch mainSels soup

/-- The title augmentation of `scrape`: `if fragment_id and
main_element:` find the first `h1`/`h2`/`h3` in the region; `if h1:`
is a found check (any found heading, childless included, is truthy),
appending its stripped text, with the `#fragment` form when the region
holds no heading of level 1–3. -/
def finalTitleOf (title frag : String) (mainEl : Option Node) : String :=
  if frag ≠ "" ∧ mainEl.isSome then
    match mainEl with
    | some m =>
      match findFirstTagIn ["h1", "h2", "h3"] m with
      | some h => title ++ " (Section: " ++ getTextStrip h ++ ")"
      | none => title ++ " (Section: #" ++ frag ++ ")"
    | none => title
  else title

/-- The front-matter block, exactly as concatenated by `scrape`. -/
def frontMatterOf (title source descr scrapedAt : String) : String :=
  "---\n" ++
    "title: \"" ++ title ++ "\"\n" ++
    "source_url: \"" ++ source ++ "\"\n" ++
    "description: \"" ++ descr ++ "\"\n" ++
    "scraped_at: \"" ++ scrapedAt ++ "\"\n" ++
    "---\n\n"

/-- The metadata record handed to the persistence collaborator. -/
structure ContextData where
  source_url : String
  page_title : String
  scraped_at : String
  navigation_links : List LinkEntry
  footer_links : List LinkEntry
deriving Repr

mutual

/-- Executable tree size, used as the fuel bound for the nav-link
extraction inside `scrape` (the recursion of the source descends
strictly, so the tree size over-approximates its depth). -/
def nodeSize : Node → Nat
  | .text _ => 1
  | .elem _ _ _ cs => 1 + nodeSizeList cs
termination_by structural n => n

def nodeSizeList : List Node → Nat
  | [] => 0
  | n :: ns => nodeSize n + nodeSizeList ns
termination_by structural l => l

end

/-- The `context_data` dict of `scrape`. -/
def contextOf (navSels : List (Node → Bool))
    (join : String → String → String) (soup : Node)
    (source scrapedAt finalTitle : String) : ContextData :=
  { source_url := source
    page_title := finalTitle
    scraped_at := scrapedAt
    navigation_links :=
      extractLinksRecursive join source (nodeSize soup)
        (firstSelectorMatch navSels soup)
    footer_links :=
      extractFlatLinks join source
        (findFirstTagIn ["footer"] soup) }

/-- `GenericScraper.scrape()` for an already fetched and parsed
document.  `source` is the scraper's URL, `scrapedAt` the externally
sampled timestamp, `render` the markdownify collaborator.  The result
is `none` exactly when the Python raises (`soup.title.string` being
`None`); every other path returns the `(markdown, context)` pair. -/
def scrape (mainSels navSels : List (Node → Bool))
    (join : String → String → String) (render : Node → String)
    (soup : Node) (source scrapedAt : String) :
    Option (String × ContextData) :=
  match titleOf soup with
  | none => none
  | some title =>
    let frag := fragmentOf source
    let mainEl := mainElementOf mainSels soup frag
    let finalTitle := finalTitleOf title frag mainEl
    let fm := frontMatterOf finalTitle source (descriptionOf soup) scrapedAt
    let ctx := contextOf navSels join soup source scrapedAt finalTitle
    match mainEl with
    | none => some (fm, ctx)
    | some m => some (fm ++ render (cleanRegion join source m), ctx)

/-! ## Aliasing model for the in-place clean-up (claim C4)

`soup.select_one(selector)` returns a *live* reference into the parsed
tree, while `_get_fragment_element` builds its region purely from
`copy.copy`/`copy.deepcopy` clones.  The in-place operations of
`scrape` (`decompose`, `a_tag["href"] = ...`) therefore mutate the
parsed source tree exactly when the region came from the fallback
selector chain.  `sourceAfterScrape` renders that heap effect as a pure
function: the source tree after `scrape`, with the clean-up applied at
the position `select_one` would have aliased, and applied nowhere when
the region is a fragment-scoped clone. -/

/-- The selector whose first match the loop keeps: the first selector
with any match (every found Tag is truthy). -/
def chooseSelector (sels : List (Node → Bool)) (soup : Node) :
    Option (Node → Bool) :=
  sels.find? (fun p => (findFirst p soup).isSome)

mutual

/-- Apply `f` to the first descendant matching `p` in pre-order (the
node `select_one` aliases), leaving the rest of the tree unchanged. -/
def mutateFirst (p : Node → Bool) (f : Node → Node) : Node → Node
  | .text s => .text s
  | .elem t a c cs => .elem t a c (mutateFirstList p f cs)
termination_by structural n => n

def mutateFirstList (p : Node → Bool) (f : Node → Node) :
    List Node → List Node
  | [] => []
  | n :: ns =>
    if p n then f n :: ns
    else if (findFirst p n).isSome then mutateFirst p f n :: ns
    else n :: mutateFirstList p f ns
termination_by structural l => l

end

/-- The parsed source tree after `scrape` ran: untouched when the
region was fragment-scoped (all clean-up lands on clones), mutated in
place at the fallback-selected node otherwise. -/
def sourceAfterScrape (mainSels : List (Node → Bool))
    (join : String → String → String) (soup : Node) (source : String) :
    Node :=
  let frag := fragmentOf source
  match (if frag ≠ "" then getFragmentElement soup frag else none) with
  | some _ => soup
  | none =>
    match chooseSelector mainSels soup with
    | some p => mutateFirst p (cleanRegion join source) soup
    | none => soup

/-! ## Front-matter parser (claim C9) -/

/-- Split a character list at every newline. -/
def splitLinesAux : List Char → List Char → List (List Char)
  | [], acc => [acc.reverse]
  | c :: cs, acc =>
    if c = '\n' then acc.reverse :: splitLinesAux cs []
    else splitLinesAux cs (c :: acc)

/-- Parse one `key: "value"` line of the front-matter block: the value
is what stands between the fixed `key: "` opening and the closing
quote. -/
def parseFieldLine (key : String) (line : List Char) : Option String :=
  let keyMark := key.data ++ ':' :: ' ' :: ['"']
  if keyMark.isPrefixOf line then
    let rest := line.drop keyMark.length
    match rest.getLast? with
    | some q => if q = '"' then some (String.mk rest.dropLast) else none
    | none => none
  else none

/-- Parse the text between the opening and closing `---` lines of an
emitted document back into the four front-matter fields, in their fixed
order. -/
def parseFrontMatter (s : String) :
    Option (String × String × String × String) :=
  match splitLinesAux s.data [] with
  | [l0, l1, l2, l3, l4, l5, l6, l7] =>
    if l0 = "---".data ∧ l5 = "---".data ∧ l6 = [] ∧ l7 = [] then
      match parseFieldLine "title" l1, parseFieldLine "source_url" l2,
          parseFieldLine "description" l3, parseFieldLine "scraped_at" l4 with
      | some a, some b, some c, some d => some (a, b, c, d)
      | _, _, _, _ => none
    else none
  | _ => none

theorem splitLinesAux_append (x : List Char) (hx : '\n' ∉ x) :
    ∀ (y acc : List Char),
      splitLinesAux (x ++ '\n' :: y) acc =
        (acc.reverse ++ x) :: splitLinesAux y [] := by
  induction x with
  | nil => intro y acc; simp [splitLinesAux]
  | cons c cs ih =>
    intro y acc
    have hc : c ≠ '\n' := fun h => hx (h ▸ List.mem_cons_self c cs)
    have hcs : '\n' ∉ cs := fun h => hx (List.mem_cons_of_mem c h)
    simp [splitLinesAux, hc, ih hcs]

theorem parseFieldLine_round (key v : String) :
    parseFieldLine key
      ((key.data ++ ':' :: ' ' :: ['"']) ++ (v.data ++ ['"'])) = some v := by
  have hpre : (key.data ++ ':' :: ' ' :: ['"']).isPrefixOf
      ((key.data ++ ':' :: ' ' :: ['"']) ++ (v.data ++ ['"'])) = true :=
    List.isPrefixOf_iff_prefix.mpr (List.prefix_append _ _)
  simp only [parseFieldLine, hpre, if_true]
  rw [List.drop_left]
  simp only [List.getLast?_concat, List.dropLast_concat, if_pos]

theorem frontMatter_data (t s d ts : String) :
    (frontMatterOf t s d ts).data
      = "---".data ++ '\n' ::
        ((("title".data ++ ':' :: ' ' :: ['"']) ++ (t.data ++ ['"'])) ++ '\n' ::
         ((("source_url".data ++ ':' :: ' ' :: ['"']) ++ (s.data ++ ['"'])) ++ '\n' ::
          ((("description".data ++ ':' :: ' ' :: ['"']) ++ (d.data ++ ['"'])) ++ '\n' ::
           ((("scraped_at".data ++ ':' :: ' ' :: ['"']) ++ (ts.data ++ ['"'])) ++ '\n' ::
            ("---".data ++ '\n' :: ('\n' :: [])))))) := by
  have e1 : ("---\n" : String).data = ['-', '-', '-', '\n'] := rfl
  have e2 : ("title: \"" : String).data
      = ['t', 'i', 't', 'l', 'e', ':', ' ', '"'] := rfl
  have e3 : ("\"\n" : String).data = ['"', '\n'] := rfl
  have e4 : ("source_url: \"" : String).data
      = ['s', 'o', 'u', 'r', 'c', 'e', '_', 'u', 'r', 'l', ':', ' ', '"'] := rfl
  have e5 : ("description: \"" : String).data
      = ['d', 'e', 's', 'c', 'r', 'i', 'p', 't', 'i', 'o', 'n', ':', ' ', '"'] := rfl
  have e6 : ("scraped_at: \"" : String).data
      = ['s', 'c', 'r', 'a', 'p', 'e', 'd', '_', 'a', 't', ':', ' ', '"'] := rfl
  have e7 : ("---\n\n" : String).data = ['-', '-', '-', '\n', '\n'] := rfl
  have e8 : ("---" : String).data = ['-', '-', '-'] := rfl
  have e9 : ("title" : String).data = ['t', 'i', 't', 'l', 'e'] := rfl
  have e10 : ("source_url" : String).data
      = ['s', 'o', 'u', 'r', 'c', 'e', '_', 'u', 'r', 'l'] := rfl
  have e11 : ("description" : String).data
      = ['d', 'e', 's', 'c', 'r', 'i', 'p', 't', 'i', 'o', 'n'] := rfl
  have e12 : ("scraped_at" : String).data
      = ['s', 'c', 'r', 'a', 'p', 'e', 'd', '_', 'a', 't'] := rfl
  simp [frontMatterOf, String.data_append, e1, e2, e3, e4, e5, e6, e7, e8,
    e9, e10, e11, e12]

/-- **C9** (corrected).  The front-matter block written by the assembler
is exactly recoverable by parsing the emitted text between the `---`
lines — field order `title`, `source_url`, `description`, `scraped_at`
and quoting stable — *provided* none of the four written values
contains a newline.  (The writer performs no escaping, so a newline
inside a value breaks the line discipline of the block; see the
counterexample.) -/
theorem c9_front_matter_round_trip (t s d ts : String)
    (ht : '\n' ∉ t.data) (hs : '\n' ∉ s.data)
    (hd : '\n' ∉ d.data) (hts : '\n' ∉ ts.data) :
    parseFrontMatter (frontMatterOf t s d ts) = some (t, s, d, ts) := by
  have hL1 : '\n' ∉ ("title".data ++ ':' :: ' ' :: ['"']) ++ (t.data ++ ['"']) := by
    simp only [List.mem_append, List.mem_cons, List.mem_singleton]
    push_neg
    refine ⟨⟨by decide, by decide, by decide, by decide⟩, ht, by decide⟩
  have hL2 : '\n' ∉ ("source_url".data ++ ':' :: ' ' :: ['"']) ++ (s.data ++ ['"']) := by
    simp only [List.mem_append, List.mem_cons, List.mem_singleton]
    push_neg
    refine ⟨⟨by decide, by decide, by decide, by decide⟩, hs, by decide⟩
  have hL3 : '\n' ∉ ("description".data ++ ':' :: ' ' :: ['"']) ++ (d.data ++ ['"']) := by
    simp only [List.mem_append, List.mem_cons, List.mem_singleton]
    push_neg
    refine ⟨⟨by decide, by decide, by decide, by decide⟩, hd, by decide⟩
  have hL4 : '\n' ∉ ("scraped_at".data ++ ':' :: ' ' :: ['"']) ++ (ts.data ++ ['"']) := by
    simp only [List.mem_append, List.mem_cons, List.mem_singleton]
    push_neg
    refine ⟨⟨by decide, by decide, by decide, by decide⟩, hts, by decide⟩
  have hsplit : splitLinesAux (frontMatterOf t s d ts).data []
      = ["---".data,
         ("title".data ++ ':' :: ' ' :: ['"']) ++ (t.data ++ ['"']),
         ("source_url".data ++ ':' :: ' ' :: ['"']) ++ (s.data ++ ['"']),
         ("description".data ++ ':' :: ' ' :: ['"']) ++ (d.data ++ ['"']),
         ("scraped_at".data ++ ':' :: ' ' :: ['"']) ++ (ts.data ++ ['"']),
         "---".data, [], []] := by
    rw [frontMatter_data t s d ts]
    rw [splitLinesAux_append "---".data (by decide)]
    rw [splitLinesAux_append _ hL1]
    rw [splitLinesAux_append _ hL2]
    rw [splitLinesAux_append _ hL3]
    rw [splitLinesAux_append _ hL4]
    rw [splitLinesAux_append "---".data (by decide)]
    simp [splitLinesAux]
  rw [parseFrontMatter, hsplit]
  simp only [if_pos (by exact ⟨rfl, rfl, rfl, rfl⟩ :
    ("---".data = "---".data ∧ "---".data = "---".data ∧
      ([] : List Char) = [] ∧ ([] : List Char) = []))]
  rw [parseFieldLine_round "title" t, parseFieldLine_round "source_url" s,
    parseFieldLine_round "description" d, parseFieldLine_round "scraped_at" ts]
  simp

/-! ## Region-scoper lemmas (claims C1, C2, C3) -/

theorem containsTag_false_iff (tags : List String) (x : Node) :
    containsTag tags x = false ↔ findFirstTagIn tags x = none := by
  unfold containsTag
  cases findFirstTagIn tags x <;> simp

theorem fragmentWalk_clean (stopTags : List String) :
    ∀ (pre rest : List Node),
      (∀ x ∈ pre, hasTagIn stopTags x = false ∧ containsTag stopTags x = false) →
      fragmentWalk stopTags (pre ++ rest) = pre ++ fragmentWalk stopTags rest := by
  intro pre
  induction pre with
  | nil => intro rest _; simp
  | cons x xs ih =>
    intro rest hcl
    have hx := hcl x (List.mem_cons_self x xs)
    have hxs : ∀ y ∈ xs, hasTagIn stopTags y = false ∧ containsTag stopTags y = false :=
      fun y hy => hcl y (List.mem_cons_of_mem x hy)
    cases x with
    | text s =>
      simp only [List.cons_append, fragmentWalk]
      simp [copyNode_eq, ih rest hxs]
    | elem t a c cs =>
      have ht : ¬ t ∈ stopTags := by
        have := hx.1
        simpa [hasTagIn, Node.name] using this
      simp only [List.cons_append, fragmentWalk]
      rw [if_neg (by simpa using ht)]
      rw [if_neg (by simp [hx.2])]
      simp [copyNode_eq, ih rest hxs]

theorem fragmentWalk_stop (stopTags : List String) (stop : Node)
    (post : List Node) (h : hasTagIn stopTags stop = true) :
    fragmentWalk stopTags (stop :: post) = [] := by
  cases stop with
  | text s => simp [hasTagIn, Node.name] at h
  | elem t a c cs =>
    have ht : t ∈ stopTags := by simpa [hasTagIn, Node.name] using h
    simp [fragmentWalk, ht]

theorem fragmentWalk_contains (stopTags : List String) (t : String)
    (a : List (String × String)) (c : List String) (cs post : List Node)
    (ht : t ∉ stopTags)
    (hct : containsTag stopTags (.elem t a c cs) = true) :
    fragmentWalk stopTags (.elem t a c cs :: post)
      = [pruneBelow stopTags (.elem t a c cs)] := by
  rw [fragmentWalk]
  rw [if_neg (by simpa using ht)]
  rw [if_pos (by simp [hct])]
  rw [copyNode_eq]

theorem findFirstList_clean (p : Node → Bool) :
    ∀ (pre rest : List Node) (h : Node),
      (∀ x ∈ pre, p x = false ∧ findFirst p x = none) → p h = true →
      findFirstList p (pre ++ h :: rest) = some h := by
  intro pre
  induction pre with
  | nil => intro rest h _ hp; simp [findFirstList, hp]
  | cons x xs ih =>
    intro rest h hcl hp
    have hx := hcl x (List.mem_cons_self x xs)
    have hxs : ∀ y ∈ xs, p y = false ∧ findFirst p y = none :=
      fun y hy => hcl y (List.mem_cons_of_mem x hy)
    simp only [List.cons_append, findFirstList]
    rw [if_neg (by simp [hx.1])]
    rw [hx.2]
    exact ih rest h hxs hp

theorem pruneChildren_clean (stopTags : List String) :
    ∀ (wpre rest : List Node) (h : Node),
      (∀ x ∈ wpre, hasTagIn stopTags x = false ∧ containsTag stopTags x = false) →
      hasTagIn stopTags h = true →
      pruneChildren stopTags (wpre ++ h :: rest)
        = wpre ++ rest.filter (fun m => ¬ m.isElem) := by
  intro wpre
  induction wpre with
  | nil => intro rest h _ hp; simp [pruneChildren, hp]
  | cons x xs ih =>
    intro rest h hcl hp
    have hx := hcl x (List.mem_cons_self x xs)
    have hxs : ∀ y ∈ xs, hasTagIn stopTags y = false ∧ containsTag stopTags y = false :=
      fun y hy => hcl y (List.mem_cons_of_mem x hy)
    simp only [List.cons_append, pruneChildren]
    rw [if_neg (by simp [hx.1])]
    rw [if_neg (by simp [hx.2])]
    simp only [List.append_eq]
    rw [ih rest h hxs hp]

theorem fragmentWalk_no_stop (stopTags : List String) :
    ∀ (sibs : List Node) (n : Node), n ∈ fragmentWalk stopTags sibs →
      hasTagIn stopTags n = false := by
  intro sibs
  induction sibs with
  | nil => intro n h; simp [fragmentWalk] at h
  | cons x rest ih =>
    intro n hmem
    cases x with
    | text s =>
      rw [fragmentWalk] at hmem
      rcases List.mem_cons.mp hmem with h1 | h2
      · subst h1; simp [copyNode, hasTagIn, Node.name]
      · exact ih n h2
    | elem t a c cs =>
      rw [fragmentWalk] at hmem
      by_cases hst : t ∈ stopTags
      · simp [hst] at hmem
      · rw [if_neg (by simpa using hst)] at hmem
        by_cases hct : containsTag stopTags (.elem t a c cs) = true
        · rw [if_pos (by simp [hct])] at hmem
          rw [List.mem_singleton] at hmem
          subst hmem
          simp [copyNode_eq, pruneBelow, hasTagIn, Node.name, hst]
        · rw [if_neg (by simp at hct ⊢; exact hct)] at hmem
          rcases List.mem_cons.mp hmem with h1 | h2
          · subst h1; simp [copyNode_eq, hasTagIn, Node.name, hst]
          · exact ih n h2

mutual

/-- Does node `a` occur (as a subtree value) in the tree below — or at —
`n`?  Used to state inclusion/exclusion of nodes in extracted
regions. -/
def occursIn (a : Node) : Node → Bool
  | .text s => a == .text s
  | .elem t at_ c cs => a == .elem t at_ c cs || occursInList a cs
termination_by structural n => n

def occursInList (a : Node) : List Node → Bool
  | [] => false
  | n :: ns => occursIn a n || occursInList a ns
termination_by structural l => l

end

/-! ## Claim C3 — non-heading anchors -/

/-- **C3** (confirmed).  An anchor resolving to a non-heading element
makes the region scoper return a (deep copy of) the entire subtree
rooted at that element, siblings ignored; and re-extracting from a copy
of the document yields a structurally identical result. -/
theorem c3_non_heading_anchor (soup target : Node) (sibs : List Node)
    (frag t : String)
    (hfind : findTargetIn frag soup = some (target, sibs))
    (hname : target.name = some t) (hnh : t ∉ headingTags) :
    getFragmentElement soup frag = some target ∧
    getFragmentElement (copyNode soup) frag = getFragmentElement soup frag := by
  constructor
  · simp only [getFragmentElement, hfind, hname]
    rw [if_pos hnh, copyNode_eq]
  · rw [copyNode_eq]

def c3soup : Node :=
  .elem "[document]" [] [] [
    .elem "body" [] [] [
      .elem "div" [("id", "z")] [] [.text "inner", .elem "p" [] [] [.text "deep"]],
      .elem "p" [] [] [.text "sib"]]]

/-- Witness for C3 at a concrete document: the `div#z` subtree comes
back whole, and extraction from a copy agrees. -/
theorem c3_non_heading_anchor_witness :
    getFragmentElement c3soup "z"
      = some (.elem "div" [("id", "z")] []
          [.text "inner", .elem "p" [] [] [.text "deep"]]) ∧
    getFragmentElement (copyNode c3soup) "z" = getFragmentElement c3soup "z" :=
  c3_non_heading_anchor c3soup
    (.elem "div" [("id", "z")] [] [.text "inner", .elem "p" [] [] [.text "deep"]])
    [.elem "p" [] [] [.text "sib"]] "z" "div" (by decide) (by decide) (by decide)

/-! ## Claim C1 — the heading-anchor sibling walk -/

/-- **C1** (corrected).  For a heading anchor at level `L`: the region
never contains a sibling heading of level ≤ `L` (third conjunct, with
no side conditions), and the region consists of the anchor copy
followed by exactly the element siblings that precede the first
stopping point — *provided* none of those earlier siblings contains a
nested stop-heading.  (As stated the claim fails: a sibling that merely
contains a nested stop-heading also halts the walk, so a non-heading
sibling between it and the next direct stop-heading is not included;
moreover text siblings are never walked, since bs4's
`find_next_siblings()` yields only elements.) -/
theorem c1_heading_sibling_walk (soup target stop : Node)
    (sibs pre post : List Node) (frag t : String)
    (hfind : findTargetIn frag soup = some (target, sibs))
    (hname : target.name = some t) (hh : t ∈ headingTags)
    (hsplit : elementsOnly sibs = pre ++ stop :: post)
    (hstop : hasTagIn (stopTagsFor t) stop = true)
    (hclean : ∀ x ∈ pre, hasTagIn (stopTagsFor t) x = false ∧
       containsTag (stopTagsFor t) x = false) :
    getFragmentElement soup frag = some (.elem "div" [] [] (target :: pre)) ∧
    stop ∉ pre ∧
    (∀ n, n ∈ fragmentWalk (stopTagsFor t) (elementsOnly sibs) →
       hasTagIn (stopTagsFor t) n = false) := by
  refine ⟨?_, ?_, fun n hn => fragmentWalk_no_stop _ _ n hn⟩
  · simp only [getFragmentElement, hfind, hname]
    rw [if_neg (by simp [hh])]
    rw [hsplit, fragmentWalk_clean _ pre _ hclean, fragmentWalk_stop _ _ _ hstop,
      copyNode_eq]
    simp
  · intro hmem
    have := (hclean stop hmem).1
    rw [hstop] at this
    exact absurd this (by simp)

def c1soup : Node :=
  .elem "[document]" [] [] [
    .elem "body" [] [] [
      .elem "h2" [("id", "a")] [] [.text "A"],
      .elem "div" [] [] [.elem "h1" [] [] [.text "Next"]],
      .elem "p" [] [] [.text "x"],
      .elem "h2" [] [] [.text "B"]]]

def c1pNode : Node := .elem "p" [] [] [.text "x"]

/-- Counterexample to C1 as stated: in `c1soup` the anchor `h2#a` is
followed by a `div` containing an `h1` (a nested stop-heading), then
the non-heading sibling `<p>x</p>`, then the stopping sibling heading
`<h2>B</h2>`.  The `p` precedes the stopping direct-sibling heading in
document order, yet the extracted region does not contain it — the
walk halted at the `div`. -/
theorem c1_counterexample :
    findTargetIn "a" c1soup
      = some (.elem "h2" [("id", "a")] [] [.text "A"],
          [.elem "div" [] [] [.elem "h1" [] [] [.text "Next"]],
           c1pNode, .elem "h2" [] [] [.text "B"]]) ∧
    (getFragmentElement c1soup "a").map (occursIn c1pNode) = some false := by
  decide

def c1wSoup : Node :=
  .elem "[document]" [] [] [
    .elem "body" [] [] [
      .elem "h2" [("id", "a")] [] [.text "A"],
      .elem "p" [] [] [.text "x"],
      .elem "h2" [] [] [.text "B"],
      .elem "p" [] [] [.text "y"]]]

/-- Witness for the amended C1 at a concrete document with a clean
prefix: the region is the anchor plus the one preceding `p`. -/
theorem c1_heading_sibling_walk_witness :
    getFragmentElement c1wSoup "a"
      = some (.elem "div" [] []
          [.elem "h2" [("id", "a")] [] [.text "A"],
           .elem "p" [] [] [.text "x"]]) :=
  (c1_heading_sibling_walk c1wSoup
    (.elem "h2" [("id", "a")] [] [.text "A"])
    (.elem "h2" [] [] [.text "B"])
    [.elem "p" [] [] [.text "x"], .elem "h2" [] [] [.text "B"],
      .elem "p" [] [] [.text "y"]]
    [.elem "p" [] [] [.text "x"]]
    [.elem "p" [] [] [.text "y"]]
    "a" "h2" (by decide) (by decide) (by decide) (by decide) (by decide)
    (by decide)).1

/-! ## Claim C2 — truncation of a sibling containing a nested stop-heading -/

/-- **C2** (corrected).  When the sibling walk reaches a sibling whose
subtree contains a nested stop-heading (earlier siblings being free of
stop-headings), the walk halts at that sibling, the sibling is appended
in truncated form, and the truncation removes exactly the first nested
stop-heading together with its following *element siblings within its
own parent* — its text siblings and any content elsewhere in the
subtree (including content after the stop-heading's parent, which still
follows the stop-heading in document order) are retained.  (As stated
the claim fails: it promises that *everything* from the stop-heading
onward within the subtree is excluded; see the counterexample, where a
later child of the wrapper survives.) -/
theorem c2_nested_stop_truncation (soup target w h : Node)
    (sibs pre post wpre wpost : List Node) (frag t wt : String)
    (wa : List (String × String)) (wc : List String)
    (hfind : findTargetIn frag soup = some (target, sibs))
    (hname : target.name = some t) (hh : t ∈ headingTags)
    (hsplit : elementsOnly sibs = pre ++ w :: post)
    (hclean : ∀ x ∈ pre, hasTagIn (stopTagsFor t) x = false ∧
       containsTag (stopTagsFor t) x = false)
    (hw : w = .elem wt wa wc (wpre ++ h :: wpost))
    (hwt : wt ∉ stopTagsFor t)
    (hwpre : ∀ x ∈ wpre, hasTagIn (stopTagsFor t) x = false ∧
       containsTag (stopTagsFor t) x = false)
    (hstop : hasTagIn (stopTagsFor t) h = true) :
    getFragmentElement soup frag
      = some (.elem "div" [] []
          (target :: (pre ++
            [.elem wt wa wc
              (wpre ++ wpost.filter (fun m => ¬ m.isElem))]))) := by
  have hcontains : containsTag (stopTagsFor t) w = true := by
    rw [hw]
    show (findFirst (hasTagIn (stopTagsFor t)) _).isSome = true
    have : findFirst (hasTagIn (stopTagsFor t)) (.elem wt wa wc (wpre ++ h :: wpost))
        = findFirstList (hasTagIn (stopTagsFor t)) (wpre ++ h :: wpost) := rfl
    rw [this]
    rw [findFirstList_clean _ wpre wpost h
      (fun x hx => ⟨(hwpre x hx).1, (containsTag_false_iff _ _).mp (hwpre x hx).2⟩)
      hstop]
    rfl
  simp only [getFragmentElement, hfind, hname]
  rw [if_neg (by simp [hh])]
  rw [hsplit, fragmentWalk_clean _ pre _ hclean]
  rw [hw] at hcontains ⊢
  rw [fragmentWalk_contains _ wt wa wc _ post hwt hcontains]
  have hprune : pruneBelow (stopTagsFor t) (.elem wt wa wc (wpre ++ h :: wpost))
      = .elem wt wa wc (wpre ++ wpost.filter (fun m => ¬ m.isElem)) := by
    show Node.elem wt wa wc (pruneChildren (stopTagsFor t) (wpre ++ h :: wpost)) = _
    rw [pruneChildren_clean _ wpre wpost h hwpre hstop]
  rw [hprune, copyNode_eq]

def c2soup : Node :=
  .elem "[document]" [] [] [
    .elem "body" [] [] [
      .elem "h2" [("id", "a")] [] [.text "A"],
      .elem "div" [] [] [
        .elem "div" [] [] [
          .elem "p" [] [] [.text "before"],
          .elem "h2" [] [] [.text "stop"],
          .elem "p" [] [] [.text "after1"]],
        .elem "p" [] [] [.text "after2"]]]]

/-- Counterexample to C2 as stated: in `c2soup` the anchor `h2#a` has
one sibling, a wrapper `div` whose inner `div` holds the nested
stop-heading `<h2>stop</h2>` followed by `<p>after1</p>`, the wrapper
then continuing with `<p>after2</p>`.  In document order `after2`
comes after the stop-heading and lies within the truncated sibling
subtree, yet the extracted region retains it (the pruning only removes
the stop-heading's own following element siblings, here `after1`). -/
theorem c2_counterexample :
    (getFragmentElement c2soup "a").map
        (occursIn (.elem "p" [] [] [.text "after2"])) = some true ∧
    (getFragmentElement c2soup "a").map
        (occursIn (.elem "p" [] [] [.text "after1"])) = some false ∧
    (getFragmentElement c2soup "a").map
        (occursIn (.elem "h2" [] [] [.text "stop"])) = some false := by
  decide

def c2wSoup : Node :=
  .elem "[document]" [] [] [
    .elem "body" [] [] [
      .elem "h2" [("id", "a")] [] [.text "A"],
      .elem "div" [("id", "w")] [] [
        .elem "p" [] [] [.text "keep"],
        .elem "h1" [] [] [.text "stop"],
        .text "tail",
        .elem "p" [] [] [.text "drop"]],
      .elem "p" [] [] [.text "never"]]]

/-- Witness for the amended C2 at a concrete document: the wrapper is
truncated to its pre-stop content plus the stop-heading's text sibling,
and the walk halts there (the following `p` never appears). -/
theorem c2_nested_stop_truncation_witness :
    getFragmentElement c2wSoup "a"
      = some (.elem "div" [] []
          [.elem "h2" [("id", "a")] [] [.text "A"],
           .elem "div" [("id", "w")] []
             [.elem "p" [] [] [.text "keep"], .text "tail"]]) :=
  c2_nested_stop_truncation c2wSoup
    (.elem "h2" [("id", "a")] [] [.text "A"])
    (.elem "div" [("id", "w")] [] [
      .elem "p" [] [] [.text "keep"],
      .elem "h1" [] [] [.text "stop"],
      .text "tail",
      .elem "p" [] [] [.text "drop"]])
    (.elem "h1" [] [] [.text "stop"])
    [.elem "div" [("id", "w")] [] [
      .elem "p" [] [] [.text "keep"],
      .elem "h1" [] [] [.text "stop"],
      .text "tail",
      .elem "p" [] [] [.text "drop"]],
     .elem "p" [] [] [.text "never"]]
    [] [.elem "p" [] [] [.text "never"]]
    [.elem "p" [] [] [.text "keep"]]
    [.text "tail", .elem "p" [] [] [.text "drop"]]
    "a" "h2" "div" [("id", "w")] []
    (by decide) (by decide) (by decide) (by decide) (by decide) (by decide)
    (by decide) (by decide) (by decide)

/-- Witness for the amended C9 at concrete newline-free fields. -/
theorem c9_front_matter_round_trip_witness :
    parseFrontMatter (frontMatterOf "My Page" "https://e.com/p#s" "a desc"
        "2024-01-01T00:00:00+00:00")
      = some ("My Page", "https://e.com/p#s", "a desc",
          "2024-01-01T00:00:00+00:00") :=
  c9_front_matter_round_trip "My Page" "https://e.com/p#s" "a desc"
    "2024-01-01T00:00:00+00:00" (by decide) (by decide) (by decide) (by decide)

/-- Counterexample to C9 as stated: a title containing a newline is not
recovered — the unescaped newline breaks the line discipline of the
emitted block and the parse fails outright. -/
theorem c9_counterexample :
    parseFrontMatter (frontMatterOf "A\nB" "U" "D" "S") = none := by
  decide

/-! ## Claim C8 — code-language inference order -/

/-- **C8** (corrected).  The fence language is decided by the first
matching rule, in order: (1) code text beginning with `>>>` yields
`python`; (2) otherwise the first *`div`* ancestor carrying a
`highlight-<lang>` class with `<lang>` not `default`/`text` yields
`<lang>`; (3) otherwise a `language-<lang>` class on the code element
itself yields `<lang>`; (4) otherwise no language tag.  (As stated the
claim fails: the ancestor scan of rule (2) inspects only `div`
ancestors, not every ancestor element; see the counterexample.) -/
theorem c8_code_language_order (parents : List Node) (el : Node) :
    (pyStartsWith (getTextStrip el) ">>>" = true →
       getCodeLanguage parents el = "python") ∧
    (pyStartsWith (getTextStrip el) ">>>" = false →
       ∀ l, divHighlightLang parents = some l →
         getCodeLanguage parents el = l) ∧
    (pyStartsWith (getTextStrip el) ">>>" = false →
       divHighlightLang parents = none →
       ∀ l, langFromLanguageClasses el.classList = some l →
         getCodeLanguage parents el = l) ∧
    (pyStartsWith (getTextStrip el) ">>>" = false →
       divHighlightLang parents = none →
       langFromLanguageClasses el.classList = none →
       getCodeLanguage parents el = "") := by
  refine ⟨?_, ?_, ?_, ?_⟩
  · intro h; simp [getCodeLanguage, h]
  · intro h l hdiv; simp [getCodeLanguage, h, hdiv]
  · intro h hdiv l hlang; simp [getCodeLanguage, h, hdiv, hlang]
  · intro h hdiv hlang; simp [getCodeLanguage, h, hdiv, hlang]

def c8span : Node := .elem "span" [] ["highlight-rust"] []

def c8code : Node := .elem "code" [] [] [.text "let x = 1;"]

/-- Counterexample to C8 as stated: the immediate ancestor of the code
element is a `span` carrying the class `highlight-rust`, so by the
claim the inferred language should be `rust`; the code inspects only
`div` ancestors and emits no language tag (while the same class on a
`div` ancestor does yield `rust`). -/
theorem c8_counterexample :
    "highlight-rust" ∈ c8span.classList ∧
    getCodeLanguage [c8span] c8code = "" ∧
    getCodeLanguage [Node.elem "div" [] ["highlight-rust"] []] c8code
      = "rust" := by
  decide

/-- Witness for the amended C8: one concrete instance of each of the
four rules, obtained through the theorem. -/
theorem c8_code_language_order_witness :
    getCodeLanguage [] (.elem "code" [] [] [.text ">>> x"]) = "python" ∧
    getCodeLanguage [Node.elem "div" [] ["highlight-py"] []]
        (.elem "code" [] [] [.text "x"]) = "py" ∧
    getCodeLanguage [] (.elem "code" [] ["language-js"] [.text "x"]) = "js" ∧
    getCodeLanguage [] (.elem "code" [] [] [.text "x"]) = "" :=
  ⟨(c8_code_language_order [] (.elem "code" [] [] [.text ">>> x"])).1 (by decide),
   (c8_code_language_order [Node.elem "div" [] ["highlight-py"] []]
      (.elem "code" [] [] [.text "x"])).2.1 (by decide) "py" (by decide),
   (c8_code_language_order [] (.elem "code" [] ["language-js"] [.text "x"])).2.2.1
      (by decide) (by decide) "js" (by decide),
   (c8_code_language_order [] (.elem "code" [] [] [.text "x"])).2.2.2
      (by decide) (by decide) (by decide)⟩

/-! ## Claim C10 — items with empty-text direct links -/

/-- **C10** (confirmed).  In nested navigation extraction, a list item
whose direct anchor link has empty whitespace-normalized text
contributes nothing: no entry is emitted and its nested list is neither
attached as children nor spliced into the parent level; splicing
happens only for items with no direct anchor link at all. -/
theorem c10_empty_text_item_dropped (join : String → String → String)
    (base : String) (fuel : Nat) (item a : Node)
    (hlink : findDirectLink item = some a)
    (hempty : normalizeWs (getTextStrip a) = "") :
    processItem join base fuel item = [] ∧
    (∀ rest, extractItems join base (fuel + 1) (item :: rest)
       = extractItems join base fuel rest) ∧
    (∀ item' nl, findDirectLink item' = none → findDirectList item' = some nl →
       processItem join base fuel item'
         = extractLinksRecursive join base fuel (some nl)) := by
  have h1 : processItem join base fuel item = [] := by
    simp [processItem, hlink, hempty]
  refine ⟨h1, ?_, ?_⟩
  · intro rest
    rw [extractItems_cons, h1, List.nil_append]
  · intro item' nl h1' h2'
    simp [processItem, h1', h2']

def c10item : Node :=
  .elem "li" [] [] [
    .elem "a" [("href", "/x")] [] [.text "   "],
    .elem "ul" [] [] [
      .elem "li" [] [] [.elem "a" [("href", "/y")] [] [.text "Y"]]]]

/-- Witness for C10 at a concrete item: the whitespace-only direct link
silences the whole item, nested list included. -/
theorem c10_empty_text_item_dropped_witness :
    processItem (fun b r => b ++ r) "base" 5 c10item = [] :=
  (c10_empty_text_item_dropped (fun b r => b ++ r) "base" 5 c10item
    (.elem "a" [("href", "/x")] [] [.text "   "])
    (by decide) (by decide)).1

/-! ## Occurrence lemmas and claim C6 -/

theorem occursIn_refl (a : Node) : occursIn a a = true := by
  cases a <;> simp [occursIn]

theorem occursInList_of_mem (a : Node) :
    ∀ (l : List Node), a ∈ l → occursInList a l = true := by
  intro l
  induction l with
  | nil => intro h; simp at h
  | cons x xs ih =>
    intro h
    rcases List.mem_cons.mp h with h1 | h2
    · subst h1; simp [occursInList, occursIn_refl]
    · simp [occursInList, ih h2]

theorem occursIn_of_mem_childList (a n : Node) (h : a ∈ n.childList) :
    occursIn a n = true := by
  cases n with
  | text s => simp [Node.childList] at h
  | elem t at_ c cs =>
    simp only [Node.childList] at h
    simp [occursIn, occursInList_of_mem a cs h]

theorem occursIn_trans (a : Node) : ∀ (c b : Node),
    occursIn a b = true → occursIn b c = true → occursIn a c = true := by
  apply nodeInduction
    (fun c => ∀ b, occursIn a b = true → occursIn b c = true →
      occursIn a c = true)
    (fun l => ∀ b, occursIn a b = true → occursInList b l = true →
      occursInList a l = true)
  · intro s b hab hbc
    have hb : b = .text s := by simpa [occursIn, beq_iff_eq] using hbc
    subst hb; exact hab
  · intro t at_ cls cs ih b hab hbc
    simp only [occursIn, Bool.or_eq_true] at hbc
    rcases hbc with h1 | h2
    · have hb : b = .elem t at_ cls cs := by simpa [beq_iff_eq] using h1
      subst hb; exact hab
    · simp only [occursIn, Bool.or_eq_true]
      exact Or.inr (ih b hab h2)
  · intro b _ h; simp [occursInList] at h
  · intro n ns ihn ihns b hab hbc
    simp only [occursInList, Bool.or_eq_true] at hbc
    rcases hbc with h1 | h2
    · simp only [occursInList, Bool.or_eq_true]
      exact Or.inl (ihn b hab h1)
    · simp only [occursInList, Bool.or_eq_true]
      exact Or.inr (ihns b hab h2)

theorem findFirst_occurs (p : Node → Bool) : ∀ (root : Node) (r : Node),
    findFirst p root = some r → occursIn r root = true := by
  apply nodeInduction
    (fun root => ∀ r, findFirst p root = some r → occursIn r root = true)
    (fun l => ∀ r, findFirstList p l = some r → occursInList r l = true)
  · intro s r h; simp [findFirst] at h
  · intro t a c cs ih r h
    rw [show findFirst p (.elem t a c cs) = findFirstList p cs from rfl] at h
    simp only [occursIn, Bool.or_eq_true]
    exact Or.inr (ih r h)
  · intro r h; simp [findFirstList] at h
  · intro n ns ihn ihns r h
    rw [findFirstList] at h
    by_cases hp : p n
    · rw [if_pos hp] at h
      injection h with h
      subst h
      simp [occursInList, occursIn_refl]
    · rw [if_neg hp] at h
      cases hfn : findFirst p n with
      | some x =>
        rw [hfn] at h
        injection h with h
        subst h
        simp [occursInList, ihn x hfn]
      | none =>
        rw [hfn] at h
        simp [occursInList, ihns r h]

theorem findAllAnchors_spec : ∀ (root a : Node), a ∈ findAllAnchors root →
    occursIn a root = true ∧ hasTagIn ["a"] a = true ∧
      a.hrefOf.isSome = true := by
  apply nodeInduction
    (fun root => ∀ a, a ∈ findAllAnchors root →
      occursIn a root = true ∧ hasTagIn ["a"] a = true ∧ a.hrefOf.isSome = true)
    (fun l => ∀ a, a ∈ findAllAnchorsList l →
      occursInList a l = true ∧ hasTagIn ["a"] a = true ∧ a.hrefOf.isSome = true)
  · intro s a h; simp [findAllAnchors] at h
  · intro t at_ c cs ih a h
    rw [show findAllAnchors (.elem t at_ c cs) = findAllAnchorsList cs from rfl] at h
    obtain ⟨h1, h2, h3⟩ := ih a h
    exact ⟨by simp [occursIn, h1], h2, h3⟩
  · intro a h; simp [findAllAnchorsList] at h
  · intro n ns ihn ihns a h
    rw [findAllAnchorsList] at h
    rcases List.mem_append.mp h with h' | hns
    · rcases List.mem_append.mp h' with hguard | hn
      · by_cases hg : hasTagIn ["a"] n && n.hrefOf.isSome
        · rw [if_pos hg] at hguard
          rw [List.mem_singleton] at hguard
          subst hguard
          rw [Bool.and_eq_true] at hg
          obtain ⟨g1, g2⟩ := hg
          exact ⟨by simp [occursInList, occursIn_refl], g1, g2⟩
        · rw [if_neg hg] at hguard
          simp at hguard
      · obtain ⟨h1, h2, h3⟩ := ihn a hn
        exact ⟨by simp [occursInList, h1], h2, h3⟩
    · obtain ⟨h1, h2, h3⟩ := ihns a hns
      exact ⟨by simp [occursInList, h1], h2, h3⟩

mutual

/-- All entries of a link forest, nested children included. -/
def flattenEntry : LinkEntry → List LinkEntry
  | .mk t h cs => .mk t h cs :: flattenForest cs
termination_by structural e => e

def flattenForest : List LinkEntry → List LinkEntry
  | [] => []
  | e :: es => flattenEntry e ++ flattenForest es
termination_by structural l => l

end

theorem flattenForest_append : ∀ (x y : List LinkEntry),
    flattenForest (x ++ y) = flattenForest x ++ flattenForest y := by
  intro x y
  induction x with
  | nil => simp [flattenForest]
  | cons e es ih => simp [flattenForest, ih]

/-- The invariant of claim C6 for one emitted entry, relative to the
container it was extracted from: the entry's text is the whitespace
normalization of some anchor in the container and is nonempty, and its
href is the resolution of that anchor's raw href against the base. -/
def GoodEntry (join : String → String → String) (base : String)
    (root : Node) (e : LinkEntry) : Prop :=
  ∃ a raw, occursIn a root = true ∧ a.name = some "a" ∧
    a.hrefOf = some raw ∧ e.text = normalizeWs (getTextStrip a) ∧
    e.text ≠ "" ∧ e.href = join base raw

theorem goodEntry_lift (join : String → String → String) (base : String)
    (r root : Node) (e : LinkEntry) (h : GoodEntry join base r e)
    (hr : occursIn r root = true) : GoodEntry join base root e := by
  obtain ⟨a, raw, h1, h2, h3, h4, h5, h6⟩ := h
  exact ⟨a, raw, occursIn_trans a root r h1 hr, h2, h3, h4, h5, h6⟩

theorem name_of_hasTagIn_a (a : Node) (h : hasTagIn ["a"] a = true) :
    a.name = some "a" := by
  cases a with
  | text s => simp [hasTagIn, Node.name] at h
  | elem t at_ c cs =>
    have : t ∈ ["a"] := by simpa [hasTagIn, Node.name] using h
    simp only [List.mem_singleton] at this
    simp [Node.name, this]

theorem processItem_good (join : String → String → String) (base : String)
    (n : Nat) (item : Node) (e : LinkEntry)
    (hext : ∀ el e', e' ∈ flattenForest
        (extractLinksRecursive join base n (some el)) →
      GoodEntry join base el e')
    (h : e ∈ flattenForest (processItem join base n item)) :
    GoodEntry join base item e := by
  rw [processItem] at h
  cases hlink : findDirectLink item with
  | none =>
    simp only [hlink] at h
    cases hnl : findDirectList item with
    | none => simp [hnl, flattenForest] at h
    | some nl =>
      simp only [hnl] at h
      have hocc : occursIn nl item = true :=
        occursIn_of_mem_childList nl item (List.mem_of_find?_eq_some hnl)
      exact goodEntry_lift join base nl item e (hext nl e h) hocc
  | some a =>
    simp only [hlink] at h
    have hpa := List.find?_some hlink
    rw [Bool.and_eq_true] at hpa
    obtain ⟨hname, hhref⟩ := hpa
    obtain ⟨raw, hraw⟩ := Option.isSome_iff_exists.mp hhref
    have hamem : occursIn a item = true :=
      occursIn_of_mem_childList a item (List.mem_of_find?_eq_some hlink)
    by_cases hempty : normalizeWs (getTextStrip a) = ""
    · rw [if_pos hempty] at h
      simp [flattenForest] at h
    · rw [if_neg hempty] at h
      simp only [flattenForest, flattenEntry, List.append_nil] at h
      rcases List.mem_cons.mp h with he | hch
      · subst he
        refine ⟨a, raw, hamem, name_of_hasTagIn_a a hname, hraw, rfl, ?_, ?_⟩
        · simpa [LinkEntry.text] using hempty
        · simp [LinkEntry.href, hraw]
      · cases hnl : findDirectList item with
        | none => simp [hnl, flattenForest] at hch
        | some nl =>
          simp only [hnl] at hch
          have hocc : occursIn nl item = true :=
            occursIn_of_mem_childList nl item (List.mem_of_find?_eq_some hnl)
          exact goodEntry_lift join base nl item e (hext nl e hch) hocc

theorem extract_good (join : String → String → String) (base : String) :
    ∀ fuel : Nat,
      (∀ el e, e ∈ flattenForest
          (extractLinksRecursive join base fuel (some el)) →
        GoodEntry join base el e) ∧
      (∀ items e, e ∈ flattenForest (extractItems join base fuel items) →
        ∃ item, item ∈ items ∧ GoodEntry join base item e) := by
  intro fuel
  induction fuel with
  | zero =>
    constructor
    · intro el e h
      simp [extractLinksRecursive, flattenForest] at h
    · intro items e h
      simp [extractItems, flattenForest] at h
  | succ n ih =>
    obtain ⟨ihext, ihitems⟩ := ih
    constructor
    · intro el e h
      rw [extractLinksRecursive] at h
      cases hfind : findFirstTagIn listTags el with
      | none => rw [hfind] at h; simp [flattenForest] at h
      | some lst =>
        rw [hfind] at h
        obtain ⟨item, hitem, hgood⟩ := ihitems (directItems lst) e h
        have h1 : item ∈ lst.childList := (List.mem_filter.mp hitem).1
        have h2 : occursIn item lst = true :=
          occursIn_of_mem_childList item lst h1
        have h3 : occursIn lst el = true := findFirst_occurs _ el lst hfind
        exact goodEntry_lift join base item el e hgood
          (occursIn_trans item el lst h2 h3)
    · intro items e h
      cases items with
      | nil => simp [extractItems, flattenForest] at h
      | cons item rest =>
        rw [extractItems_cons, flattenForest_append] at h
        rcases List.mem_append.mp h with hL | hR
        · exact ⟨item, List.mem_cons_self item rest,
            processItem_good join base n item e ihext hL⟩
        · obtain ⟨item', hmem, hgood⟩ := ihitems rest e hR
          exact ⟨item', List.mem_cons_of_mem item hmem, hgood⟩

/-- **C6** (confirmed).  Over any document and source locator, every
entry emitted by the nested navigation extractor (children included)
and by the flat footer extractor has: nonempty text equal to the
whitespace normalization (runs collapsed to single spaces, ends
trimmed) of some anchor in the walked container, and an href that is
exactly the resolution (`urljoin`, abstracted as `join`) of that
anchor's raw href against the source locator; flat entries have no
children. -/
theorem c6_link_invariants (join : String → String → String) (base : String) :
    (∀ fuel el e,
       e ∈ flattenForest (extractLinksRecursive join base fuel (some el)) →
       GoodEntry join base el e) ∧
    (∀ el e, e ∈ extractFlatLinks join base (some el) →
       GoodEntry join base el e ∧ e.children = []) := by
  constructor
  · intro fuel el e h
    exact (extract_good join base fuel).1 el e h
  · intro el e h
    rw [extractFlatLinks] at h
    obtain ⟨a, hmem, hf⟩ := List.mem_filterMap.mp h
    obtain ⟨hocc, hname, hhref⟩ := findAllAnchors_spec el a hmem
    obtain ⟨raw, hraw⟩ := Option.isSome_iff_exists.mp hhref
    by_cases hempty : normalizeWs (getTextStrip a) = ""
    · simp [hempty] at hf
    · rw [if_neg (by simpa using hempty)] at hf
      injection hf with hf
      subst hf
      refine ⟨⟨a, raw, hocc, name_of_hasTagIn_a a hname, hraw, rfl, ?_, ?_⟩, rfl⟩
      · simpa [LinkEntry.text] using hempty
      · simp [LinkEntry.href, hraw]

theorem entryInduction
    (P : LinkEntry → Prop) (Q : List LinkEntry → Prop)
    (hmk : ∀ t h cs, Q cs → P (.mk t h cs))
    (hnil : Q [])
    (hcons : ∀ e es, P e → Q es → Q (e :: es)) :
    ∀ e, P e :=
  fun e => @LinkEntry.rec P Q hmk hnil hcons e

mutual

def beqEntry : LinkEntry → LinkEntry → Bool
  | .mk t1 h1 cs1, .mk t2 h2 cs2 =>
      t1 == t2 && h1 == h2 && beqEntryList cs1 cs2
termination_by structural e => e

def beqEntryList : List LinkEntry → List LinkEntry → Bool
  | [], [] => true
  | e :: es, f :: fs => beqEntry e f && beqEntryList es fs
  | _, _ => false
termination_by structural l => l

end

theorem beqEntry_iff : ∀ a b : LinkEntry, beqEntry a b = true ↔ a = b := by
  apply entryInduction (fun a => ∀ b, beqEntry a b = true ↔ a = b)
    (fun l => ∀ m, beqEntryList l m = true ↔ l = m)
  · intro t h cs ih b
    cases b with
    | mk t2 h2 cs2 =>
      simp only [beqEntry, Bool.and_eq_true, beq_iff_eq, ih, LinkEntry.mk.injEq]
      tauto
  · intro m
    cases m <;> simp [beqEntryList]
  · intro e es ihe ihes m
    cases m with
    | nil => simp [beqEntryList]
    | cons f fs =>
      simp only [beqEntryList, Bool.and_eq_true, ihe, ihes, List.cons.injEq]

instance : DecidableEq LinkEntry := fun a b =>
  decidable_of_iff (beqEntry a b = true) (beqEntry_iff a b)

def c6nav : Node :=
  .elem "nav" [] [] [
    .elem "ul" [] [] [
      .elem "li" [] [] [
        .elem "a" [("href", "/a")] [] [.text " A  B "]]]]

/-- Witness for C6 at a concrete container: the single nested entry and
the single flat entry both satisfy the invariant. -/
theorem c6_link_invariants_witness :
    GoodEntry (fun b r => b ++ r) "https://e/" c6nav
      (LinkEntry.mk "A B" "https://e//a" []) ∧
    LinkEntry.children (LinkEntry.mk "A B" "https://e//a" []) = [] :=
  ⟨(c6_link_invariants (fun b r => b ++ r) "https://e/").1 5 c6nav
      (LinkEntry.mk "A B" "https://e//a" []) (by decide),
   ((c6_link_invariants (fun b r => b ++ r) "https://e/").2 c6nav
      (LinkEntry.mk "A B" "https://e//a" []) (by decide)).2⟩

/-! ## Claim C5 — anchor-not-found degrades, never fails -/

/-- **C5** (confirmed).  An anchor identifier that resolves to no
element is not an error: the region choice falls through to the ordered
fallback selector chain (first conjunct), and when that chain also
produces no content region the scrape still returns successfully with a
front-matter-only markdown string (empty body) plus the metadata
record (second conjunct).  The `htitle` hypothesis excludes the one
raising path of the source — `soup.title.string` being `None`, an
`AttributeError` independent of the anchor — on every other document
the embedded `scrape` is total. -/
theorem c5_anchor_not_found_degrades
    (mainSels navSels : List (Node → Bool)) (join : String → String → String)
    (render : Node → String) (soup : Node) (source scrapedAt title : String)
    (htitle : titleOf soup = some title)
    (hfrag : findTargetIn (fragmentOf source) soup = none) :
    mainElementOf mainSels soup (fragmentOf source)
      = firstSelectorMatch mainSels soup ∧
    (firstSelectorMatch mainSels soup = none →
      scrape mainSels navSels join render soup source scrapedAt
        = some (frontMatterOf title source (descriptionOf soup) scrapedAt,
            contextOf navSels join soup source scrapedAt title)) := by
  have hge : getFragmentElement soup (fragmentOf source) = none := by
    rw [getFragmentElement, hfrag]
  have hmain : mainElementOf mainSels soup (fragmentOf source)
      = firstSelectorMatch mainSels soup := by
    rw [mainElementOf]
    by_cases hf : fragmentOf source ≠ ""
    · rw [if_pos hf, hge]
    · rw [if_neg hf]
  refine ⟨hmain, fun hnone => ?_⟩
  rw [scrape, htitle]
  simp only [hmain, hnone, finalTitleOf, Option.isSome_none, Bool.false_eq_true,
    and_false, if_false]

def c5soup : Node :=
  .elem "[document]" [] [] [
    .elem "head" [] [] [.elem "title" [] [] [.text " T "]],
    .elem "body" [] [] [.elem "p" [] [] [.text "hello"]]]

/-- Witness for C5: fragment `#nope` resolves to nothing, no fallback
selector is configured, and the scrape returns the front-matter-only
pair. -/
theorem c5_anchor_not_found_degrades_witness :
    scrape [] [] (fun b r => b ++ r) (fun _ => "MD") c5soup
        "http://e#nope" "TS"
      = some (frontMatterOf "T" "http://e#nope" (descriptionOf c5soup) "TS",
          contextOf [] (fun b r => b ++ r) c5soup "http://e#nope" "TS" "T") :=
  (c5_anchor_not_found_degrades [] [] (fun b r => b ++ r) (fun _ => "MD")
    c5soup "http://e#nope" "TS" "T" (by decide) (by decide)).2 (by decide)

/-! ## Claim C7 — title augmentation -/

/-- **C7** (confirmed).  When the source locator carries a fragment and
a content region was found, the page title of the output is the
`finalTitleOf` augmentation (first conjunct): it appends
`" (Section: <heading text>)"` with the stripped text of the first
heading of level 1–3 found inside the region (`if h1:` is a found
check — every found Tag is truthy), and `" (Section: #<identifier>)"`
when the region holds no such heading. -/
theorem c7_title_augmentation
    (mainSels navSels : List (Node → Bool)) (join : String → String → String)
    (render : Node → String) (soup m : Node) (source scrapedAt title : String)
    (htitle : titleOf soup = some title)
    (hfrag : fragmentOf source ≠ "")
    (hmain : mainElementOf mainSels soup (fragmentOf source) = some m) :
    ((scrape mainSels navSels join render soup source scrapedAt).map
        (fun r => r.2.page_title))
      = some (finalTitleOf title (fragmentOf source) (some m)) ∧
    (∀ h, findFirstTagIn ["h1", "h2", "h3"] m = some h →
       finalTitleOf title (fragmentOf source) (some m)
         = title ++ " (Section: " ++ getTextStrip h ++ ")") ∧
    (findFirstTagIn ["h1", "h2", "h3"] m = none →
       finalTitleOf title (fragmentOf source) (some m)
         = title ++ " (Section: #" ++ fragmentOf source ++ ")") := by
  refine ⟨?_, ?_, ?_⟩
  · rw [scrape, htitle]
    simp only [hmain]
    simp [contextOf]
  · intro h hfind
    simp [finalTitleOf, hfrag, hfind]
  · intro hfind
    simp [finalTitleOf, hfrag, hfind]

def c7wSoup : Node :=
  .elem "[document]" [] [] [
    .elem "head" [] [] [.elem "title" [] [] [.text "T"]],
    .elem "body" [] [] [
      .elem "h2" [("id", "s")] [] [.text "Hello"],
      .elem "p" [] [] [.text "body"]]]

/-- Witness for C7: the first heading `Hello` inside the region
augments the title with its text. -/
theorem c7_title_augmentation_witness :
    (scrape [] [] (fun b r => b ++ r) (fun _ => "") c7wSoup "http://e#s"
        "TS").map (fun r => r.2.page_title)
      = some "T (Section: Hello)" := by
  have h := c7_title_augmentation [] [] (fun b r => b ++ r) (fun _ => "")
    c7wSoup
    (.elem "div" [] [] [.elem "h2" [("id", "s")] [] [.text "Hello"],
      .elem "p" [] [] [.text "body"]])
    "http://e#s" "TS" "T" (by decide) (by decide) (by decide)
  rw [h.1, h.2.1 (.elem "h2" [("id", "s")] [] [.text "Hello"]) (by decide)]
  decide

/-! ## Claim C4 — copy-on-extract vs aliased fallback regions -/

/-- **C4** (corrected, amended part).  Whenever the content region
comes from the anchor path (`_get_fragment_element` returned a
region), that region is built exclusively from `copy.copy` /
`copy.deepcopy` clones, so the noise-filter removals and href rewriting
that `scrape` subsequently performs leave the parsed source tree
unchanged.  (The claim as stated extends this to fallback-selected
regions, which is false: `select_one` hands back a live node of the
source tree; see the counterexample.) -/
theorem c4_copy_on_extract (mainSels : List (Node → Bool))
    (join : String → String → String) (soup m : Node) (source : String)
    (hfrag : fragmentOf source ≠ "")
    (hge : getFragmentElement soup (fragmentOf source) = some m) :
    sourceAfterScrape mainSels join soup source = soup := by
  simp [sourceAfterScrape, hfrag, hge]

def c4soup : Node :=
  .elem "[document]" [] [] [
    .elem "body" [] [] [
      .elem "div" [] ["content"] [
        .elem "a" [("href", "#x")] ["headerlink"] [.text "#"],
        .elem "p" [] [] [.text "body text"]]]]

def c4sel : Node → Bool := fun n =>
  n.name = some "div" && "content" ∈ n.classList

/-- Counterexample to C4 as stated: with no usable fragment the region
is fallback-selected (`div.content`), a live node of the source tree;
the headerlink decomposition of the noise filter then mutates the
parsed source tree — after the scrape the source no longer contains
the headerlink anchor. -/
theorem c4_counterexample :
    sourceAfterScrape [c4sel] (fun b r => b ++ r) c4soup "http://e"
      ≠ c4soup ∧
    occursIn (.elem "a" [("href", "#x")] ["headerlink"] [.text "#"])
        (sourceAfterScrape [c4sel] (fun b r => b ++ r) c4soup "http://e")
      = false ∧
    occursIn (.elem "a" [("href", "#x")] ["headerlink"] [.text "#"]) c4soup
      = true := by
  decide

def c4wSoup : Node :=
  .elem "[document]" [] [] [
    .elem "body" [] [] [
      .elem "h2" [("id", "a")] [] [.text "A"],
      .elem "p" [] [] [.text "x"]]]

/-- Witness for the amended C4: with a fragment-scoped region the
source tree survives the scrape unchanged. -/
theorem c4_copy_on_extract_witness :
    sourceAfterScrape [fun n => n.name = some "p"] (fun b r => b ++ r)
        c4wSoup "http://e#a" = c4wSoup :=
  c4_copy_on_extract [fun n => n.name = some "p"] (fun b r => b ++ r)
    c4wSoup
    (.elem "div" [] [] [.elem "h2" [("id", "a")] [] [.text "A"],
      .elem "p" [] [] [.text "x"]])
    "http://e#a" (by decide) (by decide)
